import Mathlib

/-!
Verification of the zumygo command-routing pipeline.

The definitions below are a shallow embedding of the Go sources:
  * `libs/commands.go`   — registry (`NewCommands`, `GetList`, `ExtractPrefix`, `HasCommand`)
  * `libs/message.go`    — message normalization (`SerializeMessage`)
  * `handlers/message.go` — dispatch (`getCachedRegex`, `ExecuteCommand`)

Modelling conventions:
  * Go strings are Lean `String`; the Go standard-library functions used by the
    sources (`strings.Split`, `ToLower`, `HasPrefix`, `TrimPrefix`, `TrimSpace`,
    `Trim`, `Join`, `Contains`, `ContainsAny`, `Replace`) are re-implemented
    below on `List Char` with their Go semantics (ASCII case folding suffices
    for every input considered here).
  * Go's `regexp.MustCompile("^"+p+"$")` followed by `len(re.FindAllString(s,-1))>0`
    holds exactly when the whole string `s` is in the language of `p` (the
    anchors restrict matches to the full input), so the embedding compiles `p`
    to a regex AST and tests a whole-string match via Brzozowski derivatives.
    The parser covers the syntax actually exercised by this repository's
    registered patterns: literal characters, backslash escapes, grouping
    `( )`, alternation `|`, and the postfix operators `* + ?`.  Character
    classes and counted repetition are not modelled; no registered pattern and
    no input below uses them.
  * Side effects of dispatch (Before hooks, replies, reactions, read receipts,
    handler invocations) are modelled as an explicit trace of `Effect`s; a Go
    handler (`Execute` field) is modelled by the outcome its invocation
    produces (normal return with a boolean, or exceeding the 60 s timeout).
-/

namespace ZumyGo

/-! ## Go string primitives -/

/-- Whether `p` is a leading substring of `s` (Go `strings.HasPrefix` on rune lists). -/
def listIsPfxOf : List Char → List Char → Bool
  | [], _ => true
  | _ :: _, [] => false
  | a :: as, b :: bs => a == b && listIsPfxOf as bs

/-- Go `strings.HasPrefix s p`. -/
def strHasPfx (s p : String) : Bool :=
  listIsPfxOf p.toList s.toList

/-- Go `strings.TrimPrefix s p`: drop the leading occurrence of `p`, if present. -/
def goTrimPfx (s p : String) : String :=
  if strHasPfx s p then ⟨s.toList.drop p.toList.length⟩ else s

/-- Go `strings.TrimSpace`: trim Unicode whitespace from both ends. -/
def goTrimSpace (s : String) : String :=
  ⟨(((s.toList.dropWhile Char.isWhitespace).reverse.dropWhile Char.isWhitespace).reverse)⟩

/-- Go `strings.Trim(s, " ")`: trim the space character from both ends. -/
def goTrimCut (s : String) : String :=
  ⟨(((s.toList.dropWhile (· == ' ')).reverse.dropWhile (· == ' ')).reverse)⟩

/-- Go `strings.ToLower` (ASCII case folding; every input considered is ASCII). -/
def goToLower (s : String) : String :=
  ⟨s.toList.map Char.toLower⟩

/-- Splitter for Go `strings.Split(s, " ")`: cut at every single space. -/
def splitSpaceAux : List Char → List Char → List (List Char)
  | [], acc => [acc.reverse]
  | c :: cs, acc =>
    if c == ' ' then acc.reverse :: splitSpaceAux cs []
    else splitSpaceAux cs (c :: acc)

/-- Go `strings.Split(s, " ")`. -/
def goSplitSpace (s : String) : List String :=
  (splitSpaceAux s.toList []).map (fun l => ⟨l⟩)

/-- Go `strings.Join(xs, " ")`. -/
def goJoinSpace : List String → String
  | [] => ""
  | [s] => s
  | s :: rest => s ++ " " ++ goJoinSpace rest

/-- Substring test on rune lists (Go `strings.Contains hay needle`). -/
def listContainsSub : List Char → List Char → Bool
  | hay, needle =>
    if listIsPfxOf needle hay then true
    else
      match hay with
      | [] => false
      | _ :: t => listContainsSub t needle

/-- Go `strings.Contains hay needle`. -/
def containsSubstr (hay needle : String) : Bool :=
  listContainsSub hay.toList needle.toList

/-- Go `strings.Replace(s, pat, "", 1)`: remove the first occurrence of `pat`. -/
def replaceFirstAux (pat : List Char) : List Char → List Char
  | [] => []
  | c :: cs =>
    if listIsPfxOf pat (c :: cs) then (c :: cs).drop pat.length
    else c :: replaceFirstAux pat cs

/-- Go `strings.Replace(s, pat, "", 1)` on strings. -/
def goReplaceFirst (s pat : String) : String :=
  ⟨replaceFirstAux pat.toList s.toList⟩

/-- `libs/message.go`: `nonDigitRegex.ReplaceAllString(v, "")` with `nonDigitRegex = \D+`,
i.e. keep only the ASCII digits of `v`. -/
def stripNonDigits (s : String) : String :=
  ⟨s.toList.filter Char.isDigit⟩

/-- Modelled from the spec: `helpers.ArrayFilter xs bad` (the helper package is not
under `src/`) removes every element equal to `bad`; the callers in
`libs/message.go` use it to filter empty strings out of the split body. -/
def arrayFilter (xs : List String) (bad : String) : List String :=
  xs.filter (fun x => x ≠ bad)

/-! ## Regex engine (Brzozowski derivatives)

Matching semantics of Go's `regexp` for the anchored patterns the sources build:
`^p$` matches input `s` iff `s` is in the language of `p`. -/

/-- Regular-expression AST for the pattern subset used by the repository. -/
inductive Regex
  | emp
  | eps
  | chr (c : Char)
  | alt (r s : Regex)
  | cat (r s : Regex)
  | star (r : Regex)

/-- Whether `r` accepts the empty string. -/
def Regex.nullable : Regex → Bool
  | .emp => false
  | .eps => true
  | .chr _ => false
  | .alt r s => r.nullable || s.nullable
  | .cat r s => r.nullable && s.nullable
  | .star _ => true

/-- Brzozowski derivative of `r` by the character `a`. -/
def Regex.deriv : Regex → Char → Regex
  | .emp, _ => .emp
  | .eps, _ => .emp
  | .chr c, a => if a == c then .eps else .emp
  | .alt r s, a => .alt (r.deriv a) (s.deriv a)
  | .cat r s, a => if r.nullable then .alt (.cat (r.deriv a) s) (s.deriv a) else .cat (r.deriv a) s
  | .star r, a => .cat (r.deriv a) (.star r)

/-- Whole-string match of `r` against a character list. -/
def Regex.matchList : Regex → List Char → Bool
  | r, [] => r.nullable
  | r, c :: cs => (r.deriv c).matchList cs

/-- Apply the postfix operators `* + ?` following one atom. -/
def parsePostOps : Regex → List Char → Regex × List Char
  | r, [] => (r, [])
  | r, c :: rest =>
    if c == '*' then parsePostOps (.star r) rest
    else if c == '+' then parsePostOps (.cat r (.star r)) rest
    else if c == '?' then parsePostOps (.alt r .eps) rest
    else (r, c :: rest)

/-- Recursive-descent parser for the pattern subset, as one fuel-decrementing
function (`goCompileRegex` supplies ample fuel).  `mode` selects the grammar
level: `0` parses an alternation (`a|b|c`), `1` a concatenation of postfixed
atoms accumulated in `acc` until `|`, `)`, or the end of input, and any other
value one atom — a group, an escaped character, or a literal character. -/
def parseRegex : Nat → Nat → Regex → List Char → Option (Regex × List Char)
  | 0, _, _, _ => none
  | f + 1, 0, _, cs =>
    match parseRegex f 1 Regex.eps cs with
    | none => none
    | some (r, rest) =>
      match rest with
      | [] => some (r, [])
      | c :: rest2 =>
        if c == '|' then
          match parseRegex f 0 Regex.eps rest2 with
          | none => none
          | some (r2, rest3) => some (.alt r r2, rest3)
        else some (r, c :: rest2)
  | f + 1, 1, acc, cs =>
    match cs with
    | [] => some (acc, [])
    | c :: cs2 =>
      if c == '|' || c == ')' then some (acc, c :: cs2)
      else
        match parseRegex f 2 Regex.eps (c :: cs2) with
        | none => none
        | some (r, rest) =>
          match parsePostOps r rest with
          | (r2, rest2) => parseRegex f 1 (.cat acc r2) rest2
  | f + 1, _, _, cs =>
    match cs with
    | [] => none
    | c :: rest =>
      if c == '(' then
        match parseRegex f 0 Regex.eps rest with
        | none => none
        | some (r, rest2) =>
          match rest2 with
          | [] => none
          | c2 :: rest3 => if c2 == ')' then some (r, rest3) else none
      else if c == '\\' then
        match rest with
        | [] => none
        | c2 :: rest2 => some (.chr c2, rest2)
      else if c == '|' || c == ')' || c == '(' || c == '*' || c == '+' || c == '?' then none
      else some (.chr c, rest)

/-- Compile a whole pattern string; `none` models a pattern outside the
modelled subset (never reached by the inputs considered in this file). -/
def goCompileRegex (pattern : String) : Option Regex :=
  match parseRegex (3 * pattern.toList.length + 3) 0 Regex.eps pattern.toList with
  | some (r, []) => some r
  | _ => none

/-- Semantics of Go `regexp.MustCompile("^"+pattern+"$")` plus
`len(re.FindAllString(s, -1)) > 0`: the whole of `s` matches `pattern`. -/
def goRegexAnchoredMatch (pattern s : String) : Bool :=
  match goCompileRegex pattern with
  | some r => r.matchList s.toList
  | none => false

/-- Go `regexp.QuoteMeta`: escape every regex special character. -/
def isRegexSpecial (c : Char) : Bool :=
  c == '\\' || c == '.' || c == '+' || c == '*' || c == '?' || c == '(' || c == ')' ||
  c == '|' || c == '[' || c == ']' || c == '{' || c == '}' || c == '^' || c == '$'

/-- Go `regexp.QuoteMeta` on strings. -/
def goQuoteMeta (s : String) : String :=
  ⟨s.toList.foldr (fun c acc => if isRegexSpecial c then '\\' :: c :: acc else c :: acc) []⟩

/-- `strings.ContainsAny(pattern, "|*+?()[]{}")` — the metacharacter test both
`getCachedRegex` (handlers/message.go:178) and `HasCommand`
(libs/commands.go:112) use to decide between regex and literal compilation. -/
def containsDispatchMeta (s : String) : Bool :=
  s.toList.any (fun c =>
    c == '|' || c == '*' || c == '+' || c == '?' || c == '(' || c == ')' ||
    c == '[' || c == ']' || c == '{' || c == '}')

/-- handlers/message.go `getCachedRegex` (lines 157–194) followed by the
`FindAllString` test at line 245.  The cache only memoizes compilation, so its
pure semantics are: compile `^pattern$` when the pattern carries a
metacharacter, else `^QuoteMeta(pattern)$`, and test a whole-string match. -/
def getCachedRegexMatch (pattern s : String) : Bool :=
  if containsDispatchMeta pattern then goRegexAnchoredMatch pattern s
  else goRegexAnchoredMatch (goQuoteMeta pattern) s

/-- libs/commands.go `HasCommand`, inner per-spec test (lines 112–124); the
source duplicates the compilation rule of `getCachedRegex` verbatim. -/
def hasCommandPatternMatch (pattern s : String) : Bool :=
  if containsDispatchMeta pattern then goRegexAnchoredMatch pattern s
  else goRegexAnchoredMatch (goQuoteMeta pattern) s

/-! ## Data model -/

/-- Outcome of one invocation of a Go `Execute` handler: a normal return
carrying the handler's boolean, or exceeding the 60 s dispatch timeout
(handlers/message.go:306–330). -/
inductive HandlerOutcome
  | ok (success : Bool)
  | timeout

/-- `libs.ICommand` (the struct's fields as used throughout `src/`; the struct
declaration itself lives in a libs file not present under `src/`).  Field
names follow the source, except that the source's `IsPrefix` flag is called
`IsPfx` here; `hasBefore` models whether the `Before` function pointer is
non-nil, and `Execute` is `none` for a nil handler, else the outcome its
invocation produces. -/
structure ICommand where
  Name : String := ""
  As : List String := []
  Tags : String := ""
  IsPfx : Bool := false
  IsOwner : Bool := false
  IsQuery : Bool := false
  IsGroup : Bool := false
  IsPrivate : Bool := false
  IsMedia : Bool := false
  IsWait : Bool := false
  hasBefore : Bool := false
  Execute : Option HandlerOutcome := none

/-- The fields of `libs.IMessage` that dispatch reads (`IsGroupChat` stands for
the source's `m.Info.IsGroup`; `IsMedia` is the attached-media kind, empty for
none). -/
structure IMessage where
  Command : String := ""
  Body : String := ""
  Text : String := ""
  IsOwner : Bool := false
  IsGroupChat : Bool := false
  IsMedia : String := ""

/-- The configuration surface dispatch and normalization read: the
`PublicMode` flag and the activation prefixes `config.Config.GetPrefixes()`
returns (field `pfxs` here; the source calls them prefixes). -/
structure BotConfig where
  PublicMode : Bool := true
  pfxs : List String := []

/-- One observable side effect of dispatch, in emission order. -/
inductive Effect
  | beforeRun (name : String)
  | reply (text : String)
  | react (emoji : String)
  | markRead
  | execute (name : String)

/-! ## Registry (libs/commands.go) -/

/-- The duplicate scan inside `NewCommands` (libs/commands.go:22–26). -/
def hasDuplicateName : List ICommand → String → Bool
  | [], _ => false
  | e :: rest, n => if e.Name == n then true else hasDuplicateName rest n

/-- libs/commands.go `NewCommands` (lines 12–29): state-passing form — the Go
function appends to the package-level `lists` slice; here the registry is
passed in and the updated registry returned.  A `none` argument models a nil
`*ICommand`. -/
def NewCommands (lists : List ICommand) (cmd : Option ICommand) : List ICommand :=
  match cmd with
  | none => lists
  | some c =>
    if c.Name == "" then lists
    else if hasDuplicateName lists c.Name then lists
    else lists ++ [c]

/-- libs/commands.go `ExtractPrefix` (lines 77–87): the first configured
activation prefix that starts `command`, as an `Option` (Go returns
`("", false)` on no match). -/
def ExtractPfx : List String → String → Option String
  | [], _ => none
  | p :: ps, command => if strHasPfx command p then some p else ExtractPfx ps command

/-- The spec-scanning loop of `HasCommand` (libs/commands.go:106–126). -/
def hasCommandScan : List ICommand → String → Bool
  | [], _ => false
  | cmd :: rest, commandName =>
    if cmd.Name == "" then hasCommandScan rest commandName
    else if hasCommandPatternMatch cmd.Name commandName then true
    else hasCommandScan rest commandName

/-- libs/commands.go `HasCommand` (lines 89–127). -/
def HasCommand (pfxs : List String) (lists : List ICommand) (name : String) : Bool :=
  if name == "" then false
  else
    let commandName :=
      match ExtractPfx pfxs name with
      | some p => goTrimSpace (goTrimPfx name p)
      | none => name
    hasCommandScan lists commandName

/-! ## Message normalization (libs/message.go `SerializeMessage`) -/

/-- The consumer-visible fields `SerializeMessage` computes from the body,
sender, and configuration. -/
structure NormResult where
  Command : String
  Text : String
  Args : List String
  Body : String
  IsOwner : Bool

/-- The owner loop of `SerializeMessage` (libs/message.go:71–76): for each
configured owner string `v`, test `v != ""` and substring containment of the
sender's canonical user identity in the digits of `v`. -/
def ownerScan : List String → String → Bool
  | [], _ => false
  | v :: rest, sender =>
    if v != "" && containsSubstr (stripNonDigits v) sender then true
    else ownerScan rest sender

/-- libs/message.go `SerializeMessage`, lines 49–94 and the fields of the
returned message that depend on them.  `sender` is `sender.ToNonAD().User`;
`botUser` is the bot's own user id when the client is connected (`none` models
a nil client, which skips the mention-stripping block). -/
def serializeNorm (pfxs : List String) (lists : List ICommand) (owners : List String)
    (sender : String) (botUser : Option String) (body : String) : NormResult :=
  let parts := goSplitSpace body
  -- `len(parts) > 0` always holds for Go `strings.Split`, so `parts[0]` is total
  let tok0 := goToLower (parts.headD "")
  let pfxOpt := ExtractPfx pfxs tok0
  let command :=
    match pfxOpt with
    | some p => goTrimSpace (goTrimPfx tok0 p)
    | none => ""
  let isOwner := ownerScan owners sender
  let body1 :=
    match botUser with
    | some u =>
      let botID := "@" ++ u
      if strHasPfx body botID then goTrimCut (goReplaceFirst body botID) else body
    | none => body
  -- the Go function assigns the `text` and `args` variables under the same
  -- `hasPrefix && HasCommand(command)` condition and builds the returned
  -- message once from those variables
  let text :=
    if pfxOpt.isSome && HasCommand pfxs lists command then
      if parts.length > 1 then goJoinSpace parts.tail else ""
    else body1
  let args :=
    if pfxOpt.isSome && HasCommand pfxs lists command then
      arrayFilter (goSplitSpace (if parts.length > 1 then goJoinSpace parts.tail else "")) ""
    else arrayFilter (goSplitSpace body1) ""
  { Command := command, Text := text, Args := args, Body := body1, IsOwner := isOwner }

/-! ## Dispatch (handlers/message.go `ExecuteCommand`) -/

/-- The prefix-requirement gate of `ExecuteCommand` (handlers/message.go:253–269):
`cmdWithPref = IsPrefix && prefix != ""`, `cmdWithoutPref = !IsPrefix`, and the
spec is skipped when both are false. -/
def prefixGatePasses (isPfxFlag : Bool) (pfx : String) : Bool :=
  let cmdWithPref := isPfxFlag && pfx != ""
  let cmdWithoutPref := !isPfxFlag
  cmdWithPref || cmdWithoutPref

/-- The gate-and-execute block of the registry loop (handlers/message.go:247–334)
for a matched spec with a non-nil handler, over the already-evaluated gate
conditions: the private-mode abort (`return`, so `[]`), the skip conditions
(`continue`, so `rec` — the trace the rest of the scan emits), the gate
replies, and finally the wait indicator, the handler invocation, and the
outcome-dependent effects of the `select` block. -/
def gateAndExecute (modeAbort pfxSkip ownerSkip querySkip groupSkip privSkip mediaSkip
    isWait : Bool) (outcome : HandlerOutcome) (name : String) (rec : List Effect) :
    List Effect :=
  if modeAbort then []
  else if pfxSkip then rec
  else if ownerSkip then rec
  else if querySkip then Effect.reply "Query Required" :: rec
  else if groupSkip then Effect.reply "Commands only work in Group Chat" :: rec
  else if privSkip then Effect.reply "Commands only work in Private Chat" :: rec
  else if mediaSkip then Effect.reply "Reply to Media Message, or send Media with Command" :: rec
  else
    (if isWait then [Effect.react "⏳"] else []) ++
    Effect.execute name ::
    (match outcome with
     | .ok ok =>
       if isWait && !ok then [Effect.react "❌"]
       else if isWait && ok then [Effect.markRead, Effect.react ""]
       else []
     | .timeout => [Effect.react "⏰"])

/-- The registry loop of `ExecuteCommand` (handlers/message.go:236–336), as the
trace of effects it emits.  `[]` after a matched spec models the source's
`return`; continuing with the rest of the list models `continue`/falling
through to the next spec.  The gate conditions are exactly the source's, in
source order, evaluated from the spec's flags and the message. -/
def execScan (cfg : BotConfig) (pfx : String) (m : IMessage) : List ICommand → List Effect
  | [] => []
  | cmd :: rest =>
    (if cmd.hasBefore then [Effect.beforeRun cmd.Name] else []) ++
    (if getCachedRegexMatch cmd.Name m.Command then
      match cmd.Execute with
      | none => execScan cfg pfx m rest
      | some outcome =>
        gateAndExecute (!cfg.PublicMode && !m.IsOwner) (!(prefixGatePasses cmd.IsPfx pfx))
          (cmd.IsOwner && !m.IsOwner) (cmd.IsQuery && m.Text == "")
          (cmd.IsGroup && !m.IsGroupChat) (cmd.IsPrivate && m.IsGroupChat)
          (cmd.IsMedia && m.IsMedia == "") cmd.IsWait outcome cmd.Name
          (execScan cfg pfx m rest)
    else execScan cfg pfx m rest)

/-- handlers/message.go `ExecuteCommand` (lines 210–342): the empty-command and
missing-prefix early returns (lines 222–231), then the registry scan. -/
def ExecuteCommand (cfg : BotConfig) (lists : List ICommand) (m : IMessage) : List Effect :=
  if m.Command == "" then []
  else
    match ExtractPfx cfg.pfxs m.Body with
    | none => []
    | some pfx => execScan cfg pfx m lists

/-! ## Trace predicates -/

/-- Only wait-indicator effects (reactions, read receipt) occur: the shape a
trace may take after a handler invocation. -/
def postOnly : List Effect → Bool
  | [] => true
  | Effect.react _ :: t => postOnly t
  | Effect.markRead :: t => postOnly t
  | _ => false

/-- At most one handler invocation occurs in the trace, and after it only that
invocation's wait-indicator effects follow (dispatch has terminated). -/
def singleDispatch : List Effect → Bool
  | [] => true
  | Effect.execute _ :: t => postOnly t
  | _ :: t => singleDispatch t

/-- Whether an effect is a Before-hook invocation. -/
def isBeforeEffect : Effect → Bool
  | Effect.beforeRun _ => true
  | _ => false

theorem singleDispatch_nil : singleDispatch [] = true := rfl

theorem singleDispatch_beforeRun (n : String) (t : List Effect) :
    singleDispatch (Effect.beforeRun n :: t) = singleDispatch t := rfl

theorem singleDispatch_reply (s : String) (t : List Effect) :
    singleDispatch (Effect.reply s :: t) = singleDispatch t := rfl

theorem singleDispatch_react (e : String) (t : List Effect) :
    singleDispatch (Effect.react e :: t) = singleDispatch t := rfl

theorem singleDispatch_execute (n : String) (t : List Effect) :
    singleDispatch (Effect.execute n :: t) = postOnly t := rfl

theorem singleDispatch_before_append (b : Bool) (n : String) (t : List Effect) :
    singleDispatch ((if b then [Effect.beforeRun n] else []) ++ t) = singleDispatch t := by
  cases b <;> simp [singleDispatch_beforeRun]

theorem singleDispatch_exec_tail (bw : Bool) (outcome : HandlerOutcome) (n : String) :
    singleDispatch ((if bw then [Effect.react "⏳"] else []) ++
      Effect.execute n ::
      (match outcome with
       | .ok ok =>
         if bw && !ok then [Effect.react "❌"]
         else if bw && ok then [Effect.markRead, Effect.react ""]
         else []
       | .timeout => [Effect.react "⏰"])) = true := by
  cases bw <;> cases outcome <;>
    first
    | rfl
    | (rename_i b; cases b <;> rfl)

theorem gateAndExecute_singleDispatch (b1 b2 b3 b4 b5 b6 b7 bw : Bool)
    (outcome : HandlerOutcome) (n : String) (rec : List Effect)
    (hrec : singleDispatch rec = true) :
    singleDispatch (gateAndExecute b1 b2 b3 b4 b5 b6 b7 bw outcome n rec) = true := by
  unfold gateAndExecute
  by_cases h1 : b1 = true
  · rw [if_pos h1]; rfl
  rw [if_neg h1]
  by_cases h2 : b2 = true
  · rw [if_pos h2]; exact hrec
  rw [if_neg h2]
  by_cases h3 : b3 = true
  · rw [if_pos h3]; exact hrec
  rw [if_neg h3]
  by_cases h4 : b4 = true
  · rw [if_pos h4, singleDispatch_reply]; exact hrec
  rw [if_neg h4]
  by_cases h5 : b5 = true
  · rw [if_pos h5, singleDispatch_reply]; exact hrec
  rw [if_neg h5]
  by_cases h6 : b6 = true
  · rw [if_pos h6, singleDispatch_reply]; exact hrec
  rw [if_neg h6]
  by_cases h7 : b7 = true
  · rw [if_pos h7, singleDispatch_reply]; exact hrec
  rw [if_neg h7]
  exact singleDispatch_exec_tail bw outcome n

theorem execScan_singleDispatch (cfg : BotConfig) (pfx : String) (m : IMessage) :
    ∀ l, singleDispatch (execScan cfg pfx m l) = true := by
  intro l
  induction l with
  | nil => rfl
  | cons cmd rest ih =>
    rw [execScan, singleDispatch_before_append]
    by_cases hm : getCachedRegexMatch cmd.Name m.Command = true
    · rw [if_pos hm]
      cases hex : cmd.Execute with
      | none => exact ih
      | some outcome =>
        exact gateAndExecute_singleDispatch _ _ _ _ _ _ _ _ outcome cmd.Name _ ih
    · rw [if_neg hm]
      exact ih

/-- C1: for every normalized message, the dispatch trace produced by
`ExecuteCommand` contains at most one handler invocation, and once a handler
has run (to completion or timeout), only that invocation's wait-indicator
effects follow — dispatch for the message has terminated. -/
theorem c1_at_most_one_handler (cfg : BotConfig) (lists : List ICommand) (m : IMessage) :
    singleDispatch (ExecuteCommand cfg lists m) = true := by
  rw [ExecuteCommand]
  by_cases hc : (m.Command == "") = true
  · rw [if_pos hc]; rfl
  · rw [if_neg hc]
    cases hpx : ExtractPfx cfg.pfxs m.Body with
    | none => rfl
    | some pfx => exact execScan_singleDispatch cfg pfx m lists

/-! ## C6: private mode is a hard gate -/

theorem execScan_private_only_hooks (cfg : BotConfig) (pfx : String) (m : IMessage)
    (hpub : cfg.PublicMode = false) (hown : m.IsOwner = false) :
    ∀ l, (execScan cfg pfx m l).all isBeforeEffect = true := by
  intro l
  induction l with
  | nil => rfl
  | cons cmd rest ih =>
    rw [execScan, List.all_append]
    have hpre : (if cmd.hasBefore then [Effect.beforeRun cmd.Name] else []).all isBeforeEffect
        = true := by
      cases cmd.hasBefore <;> simp [isBeforeEffect]
    rw [hpre, Bool.true_and]
    by_cases hm : getCachedRegexMatch cmd.Name m.Command = true
    · rw [if_pos hm]
      cases hex : cmd.Execute with
      | none => exact ih
      | some outcome =>
        have harg : (!cfg.PublicMode && !m.IsOwner) = true := by rw [hpub, hown]; rfl
        rw [harg]
        rfl
    · rw [if_neg hm]
      exact ih

/-- C6: in private mode (`PublicMode` false) with a non-owner sender, dispatch
emits nothing beyond Before-hook invocations — no reply, no reaction, no read
receipt, and no handler execution occur for the message; the first matched
executable spec aborts the entire dispatch at the global mode gate. -/
theorem c6_private_mode_aborts (cfg : BotConfig) (lists : List ICommand) (m : IMessage)
    (hpub : cfg.PublicMode = false) (hown : m.IsOwner = false) :
    (ExecuteCommand cfg lists m).all isBeforeEffect = true := by
  rw [ExecuteCommand]
  by_cases hc : (m.Command == "") = true
  · rw [if_pos hc]; rfl
  · rw [if_neg hc]
    cases ExtractPfx cfg.pfxs m.Body with
    | none => rfl
    | some pfx => exact execScan_private_only_hooks cfg pfx m hpub hown lists

/-- Private-mode configuration used as the concrete C6 scenario. -/
def cfgPriv : BotConfig := { PublicMode := false, pfxs := ["."] }

/-- A prefixed `ping` command spec whose handler returns success. -/
def pingNeedsPfx : ICommand := { Name := "ping", IsPfx := true, Execute := some (.ok true) }

/-- The normalized form of input `".ping"` from a non-owner sender. -/
def msgDotPing : IMessage := { Command := "ping", Body := ".ping" }

theorem c6_private_mode_aborts_witness :
    cfgPriv.PublicMode = false ∧ msgDotPing.IsOwner = false ∧
    (ExecuteCommand cfgPriv [pingNeedsPfx] msgDotPing).all isBeforeEffect = true :=
  ⟨rfl, rfl, c6_private_mode_aborts cfgPriv [pingNeedsPfx] msgDotPing rfl rfl⟩

/-! ## C9: media requirement gate -/

/-- C9: a matched spec with `IsMedia` set, receiving a message whose
attached-media kind is empty, emits exactly one reply — the media-required
notice — with no handler invocation for that spec, and the scan continues with
the later-registered specs. -/
theorem c9_media_required_notice (cfg : BotConfig) (pfx : String) (m : IMessage)
    (cmd : ICommand) (rest : List ICommand) (outcome : HandlerOutcome)
    (hcmd : m.Command ≠ "")
    (hpfx : ExtractPfx cfg.pfxs m.Body = some pfx)
    (hmatch : getCachedRegexMatch cmd.Name m.Command = true)
    (hexec : cmd.Execute = some outcome)
    (hmode : cfg.PublicMode = true ∨ m.IsOwner = true)
    (hgate : prefixGatePasses cmd.IsPfx pfx = true)
    (howner : cmd.IsOwner = false ∨ m.IsOwner = true)
    (hquery : cmd.IsQuery = false ∨ m.Text ≠ "")
    (hgroup : cmd.IsGroup = false ∨ m.IsGroupChat = true)
    (hpriv : cmd.IsPrivate = false ∨ m.IsGroupChat = false)
    (hmedia : cmd.IsMedia = true) (hnomedia : m.IsMedia = "") :
    ExecuteCommand cfg (cmd :: rest) m =
      (if cmd.hasBefore then [Effect.beforeRun cmd.Name] else []) ++
      Effect.reply "Reply to Media Message, or send Media with Command" ::
      execScan cfg pfx m rest := by
  have hc : (m.Command == "") = false := by simpa using hcmd
  have hmode2 : (!cfg.PublicMode && !m.IsOwner) = false := by
    rcases hmode with h | h <;> simp [h]
  have howner2 : (cmd.IsOwner && !m.IsOwner) = false := by
    rcases howner with h | h <;> simp [h]
  have hquery2 : (cmd.IsQuery && (m.Text == "")) = false := by
    rcases hquery with h | h <;> simp [h]
  have hgroup2 : (cmd.IsGroup && !m.IsGroupChat) = false := by
    rcases hgroup with h | h <;> simp [h]
  have hpriv2 : (cmd.IsPrivate && m.IsGroupChat) = false := by
    rcases hpriv with h | h <;> simp [h]
  have hmedia2 : (cmd.IsMedia && (m.IsMedia == "")) = true := by simp [hmedia, hnomedia]
  rw [ExecuteCommand]
  simp only [hc, Bool.false_eq_true, if_false, hpfx, execScan, hmatch, if_true, hexec,
    hmode2, hgate, Bool.not_true, howner2, hquery2, hgroup2, hpriv2, hmedia2]
  rfl

/-- Public-mode configuration with the `.` activation prefix. -/
def cfgPub : BotConfig := { PublicMode := true, pfxs := ["."] }

/-- A media-requiring `sticker` spec (prefix flag unset). -/
def stickerSpec : ICommand := { Name := "sticker", IsMedia := true, Execute := some (.ok true) }

/-- The normalized form of input `".sticker"` carrying no media. -/
def msgDotSticker : IMessage := { Command := "sticker", Body := ".sticker" }

theorem c9_media_required_notice_witness :
    ExecuteCommand cfgPub [stickerSpec] msgDotSticker =
      [Effect.reply "Reply to Media Message, or send Media with Command"] := by
  have h := c9_media_required_notice cfgPub "." msgDotSticker stickerSpec []
    (HandlerOutcome.ok true) (by decide) rfl rfl rfl
    (Or.inl rfl) rfl (Or.inl rfl) (Or.inl rfl) (Or.inl rfl) (Or.inl rfl) rfl rfl
  rw [h]
  rfl

/-! ## C2: the prefix-requirement gate -/

/-- A `ping` spec with the prefix-requirement flag UNSET. -/
def pingPlain : ICommand := { Name := "ping", Execute := some (.ok true) }

/-- C2 counterexample: the message `".ping"` carried the recognized prefix `"."`,
and the matched spec has `IsPrefix = false`; the claim says such a spec must be
skipped, but the code's gate (`cmdWithoutPref = !cmd.IsPrefix`) passes it and
the handler executes. -/
theorem c2_counterexample :
    ExtractPfx cfgPub.pfxs msgDotPing.Body = some "." ∧
    pingPlain.IsPfx = false ∧
    ExecuteCommand cfgPub [pingPlain] msgDotPing = [Effect.execute "ping"] :=
  ⟨rfl, rfl, rfl⟩

/-- C2 (amended): the prefix gate skips a matched executable spec exactly when
`IsPrefix` is true and the extracted prefix is the empty string; a spec with
`IsPrefix = false` always passes the gate (even though every dispatched
message carried a recognized prefix), and a skipped spec continues the
registry scan rather than aborting dispatch. -/
theorem c2_amended_prefix_gate :
    (∀ b p, prefixGatePasses b p = !(b && (p == ""))) ∧
    (∀ (cfg : BotConfig) (pfx : String) (m : IMessage) (cmd : ICommand)
       (rest : List ICommand) (outcome : HandlerOutcome),
      m.Command ≠ "" →
      ExtractPfx cfg.pfxs m.Body = some pfx →
      getCachedRegexMatch cmd.Name m.Command = true →
      cmd.Execute = some outcome →
      (cfg.PublicMode = true ∨ m.IsOwner = true) →
      cmd.IsPfx = true → pfx = "" →
      ExecuteCommand cfg (cmd :: rest) m =
        (if cmd.hasBefore then [Effect.beforeRun cmd.Name] else []) ++
        execScan cfg pfx m rest) := by
  constructor
  · intro b p
    cases b <;> simp [prefixGatePasses, bne]
  · intro cfg pfx m cmd rest outcome hcmd hpfx hmatch hexec hmode hisp hempty
    have hc : (m.Command == "") = false := by simpa using hcmd
    have hmode2 : (!cfg.PublicMode && !m.IsOwner) = false := by
      rcases hmode with h | h <;> simp [h]
    have hgate : prefixGatePasses cmd.IsPfx pfx = false := by
      simp [prefixGatePasses, hisp, hempty]
    rw [ExecuteCommand]
    simp only [hc, Bool.false_eq_true, if_false, hpfx, execScan, hmatch, if_true, hexec,
      hmode2, hgate, Bool.not_false]
    rfl

/-- Configuration whose only activation prefix is the empty string — the one
situation in which the prefix gate can actually skip a spec. -/
def cfgEmptyPfx : BotConfig := { PublicMode := true, pfxs := [""] }

/-- The normalized form of input `"ping"` under the empty-prefix configuration. -/
def msgBarePing : IMessage := { Command := "ping", Body := "ping" }

theorem c2_amended_prefix_gate_witness :
    ExecuteCommand cfgEmptyPfx [pingNeedsPfx] msgBarePing = [] := by
  have h := c2_amended_prefix_gate.2 cfgEmptyPfx "" msgBarePing pingNeedsPfx []
    (HandlerOutcome.ok true) (by decide) rfl rfl rfl
    (Or.inl rfl) rfl rfl
  rw [h]
  rfl

/-! ## C3: Before hooks across the registry scan -/

theorem ownerScan_iff (owners : List String) (sender : String) :
    ownerScan owners sender = true ↔
      ∃ v ∈ owners, v ≠ "" ∧ containsSubstr (stripNonDigits v) sender = true := by
  induction owners with
  | nil => simp [ownerScan]
  | cons v rest ih =>
    rw [ownerScan]
    by_cases h : (v != "" && containsSubstr (stripNonDigits v) sender) = true
    · rw [if_pos h]
      have h1 : (v != "") = true ∧ containsSubstr (stripNonDigits v) sender = true := by
        simpa using h
      exact ⟨fun _ => ⟨v, List.mem_cons_self _ _, by simpa using h1.1, h1.2⟩, fun _ => rfl⟩
    · rw [if_neg h, ih]
      constructor
      · rintro ⟨x, hx, hprops⟩
        exact ⟨x, List.mem_cons_of_mem _ hx, hprops⟩
      · rintro ⟨x, hx, hne, hsub⟩
        rcases List.mem_cons.mp hx with hxv | hxr
        · subst hxv
          exact absurd (by simp [bne, hne, hsub] :
            (x != "" && containsSubstr (stripNonDigits x) sender) = true) h
        · exact ⟨x, hxr, hne, hsub⟩

/-- C5: the normalized message's `IsOwner` flag is the owner loop's result, and
that loop returns true iff some configured non-empty owner string, stripped of
its non-digits, CONTAINS the sender's canonical user identity as a substring —
containment, not equality, as the concrete conjuncts illustrate with a sender
identity that is a proper substring of the digit-stripped owner string. -/
theorem c5_owner_substring_containment :
    (∀ owners sender, ownerScan owners sender = true ↔
      ∃ v ∈ owners, v ≠ "" ∧ containsSubstr (stripNonDigits v) sender = true) ∧
    (∀ pfxs lists owners sender botUser body,
      (serializeNorm pfxs lists owners sender botUser body).IsOwner = ownerScan owners sender) ∧
    ownerScan ["628-123-4567"] "123" = true ∧
    stripNonDigits "628-123-4567" ≠ "123" := by
  exact ⟨ownerScan_iff, fun pfxs lists owners sender botUser body => rfl, rfl, by decide⟩

/-! ## C7: registration keeps patterns unique -/

/-- The registered match patterns, in registration order. -/
def registryNames (l : List ICommand) : List String := l.map ICommand.Name

theorem hasDuplicateName_iff (l : List ICommand) (n : String) :
    hasDuplicateName l n = true ↔ n ∈ registryNames l := by
  induction l with
  | nil => simp [hasDuplicateName, registryNames]
  | cons e rest ih =>
    rw [hasDuplicateName]
    by_cases h : (e.Name == n) = true
    · rw [if_pos h]
      have he : e.Name = n := by simpa using h
      have hmem : n ∈ registryNames (e :: rest) := by
        rw [registryNames, List.map_cons]
        exact List.mem_cons.mpr (Or.inl he.symm)
      exact ⟨fun _ => hmem, fun _ => rfl⟩
    · rw [if_neg h, ih]
      have hne : n ≠ e.Name := fun he => h (by simp [he])
      simp [registryNames, List.mem_cons, hne]

/-- C7: `NewCommands` preserves uniqueness of match patterns in the registry,
and a registration whose pattern is empty or already present leaves the
registry unchanged — first registration wins, so the second registration's
handler can never be reached by a scan of the registry. -/
theorem c7_registration_first_wins (l : List ICommand) (c : ICommand)
    (h : (registryNames l).Nodup) :
    (registryNames (NewCommands l (some c))).Nodup ∧
    (c.Name = "" → NewCommands l (some c) = l) ∧
    (c.Name ∈ registryNames l → NewCommands l (some c) = l) ∧
    NewCommands l none = l := by
  refine ⟨?_, ?_, ?_, rfl⟩
  · rw [NewCommands]
    by_cases h1 : (c.Name == "") = true
    · simpa [h1] using h
    · simp only [h1, Bool.false_eq_true, if_false]
      by_cases h2 : hasDuplicateName l c.Name
      · simpa [h2] using h
      · have hnotmem : c.Name ∉ registryNames l := fun hm =>
          h2 ((hasDuplicateName_iff l c.Name).mpr hm)
        simp only [h2, Bool.false_eq_true, if_false]
        show (registryNames (l ++ [c])).Nodup
        rw [registryNames, List.map_append]
        refine List.Nodup.append h (List.nodup_singleton _) ?_
        intro a ha hb
        have hab : a = c.Name := by simpa using hb
        subst hab
        exact hnotmem ha
  · intro hn
    simp [NewCommands, hn]
  · intro hn
    have h2 := (hasDuplicateName_iff l c.Name).mpr hn
    simp [NewCommands, h2]

/-- The first `ping` registration. -/
def pingFirst : ICommand := { Name := "ping" }

/-- A later registration re-using the `ping` pattern with different behavior. -/
def pingSecond : ICommand := { Name := "ping", IsOwner := true, Execute := some (.ok false) }

theorem c7_registration_first_wins_witness :
    (registryNames (NewCommands [pingFirst] (some pingSecond))).Nodup ∧
    NewCommands [pingFirst] (some pingSecond) = [pingFirst] := by
  have h := c7_registration_first_wins [pingFirst] pingSecond (by decide)
  exact ⟨h.1, h.2.2.1 (by decide)⟩

/-! ## C8: pattern compilation and anchored matching -/

/-- C8: a pattern carrying one of the metacharacters `|*+?()[]{}` is compiled
as an anchored regular expression, any other pattern as an anchored escaped
literal; consequently the literal `"ping"` matches exactly the token `"ping"`
(not `"pingx"` or `"xping"`), and the pattern `"(ping|p)"` matches `"ping"`
and `"p"` but not `"pin"`. -/
theorem c8_anchored_compilation :
    containsDispatchMeta "ping" = false ∧
    containsDispatchMeta "(ping|p)" = true ∧
    getCachedRegexMatch "ping" "ping" = true ∧
    getCachedRegexMatch "ping" "pingx" = false ∧
    getCachedRegexMatch "ping" "xping" = false ∧
    getCachedRegexMatch "(ping|p)" "ping" = true ∧
    getCachedRegexMatch "(ping|p)" "p" = true ∧
    getCachedRegexMatch "(ping|p)" "pin" = false :=
  ⟨rfl, rfl, rfl, rfl, rfl, rfl, rfl, rfl⟩

/-! ## C10: the queueing gate agrees with the dispatch matcher -/

theorem matchList_emp (cs : List Char) : Regex.matchList Regex.emp cs = false := by
  induction cs with
  | nil => rfl
  | cons c rest ih => simpa [Regex.matchList, Regex.deriv] using ih

theorem toList_eq_nil_iff (s : String) : s.toList = [] ↔ s = "" := by
  constructor
  · intro h
    cases s with
    | mk data =>
      have hd : data = [] := h
      subst hd
      rfl
  · intro h
    subst h
    rfl

theorem getCachedRegexMatch_empty_pattern (s : String) (h : s ≠ "") :
    getCachedRegexMatch "" s = false := by
  have hcl : s.toList ≠ [] := fun hc => h ((toList_eq_nil_iff s).mp hc)
  rw [getCachedRegexMatch]
  cases hl : s.toList with
  | nil => exact absurd hl hcl
  | cons c cs =>
    simp only [containsDispatchMeta, goQuoteMeta, goRegexAnchoredMatch, goCompileRegex]
    show Regex.matchList Regex.eps s.toList = false
    rw [hl, Regex.matchList]
    show Regex.matchList Regex.emp cs = false
    exact matchList_emp cs

theorem hasCommandScan_iff (l : List ICommand) (n : String) :
    hasCommandScan l n = true ↔
      ∃ cmd ∈ l, cmd.Name ≠ "" ∧ hasCommandPatternMatch cmd.Name n = true := by
  induction l with
  | nil => simp [hasCommandScan]
  | cons cmd rest ih =>
    rw [hasCommandScan]
    by_cases h1 : (cmd.Name == "") = true
    · simp only [h1, if_true, ih]
      constructor
      · rintro ⟨x, hx, hprops⟩
        exact ⟨x, List.mem_cons_of_mem _ hx, hprops⟩
      · rintro ⟨x, hx, hne, hm⟩
        rcases List.mem_cons.mp hx with hxc | hxr
        · subst hxc
          exact absurd (by simpa using h1) hne
        · exact ⟨x, hxr, hne, hm⟩
    · simp only [h1, Bool.false_eq_true, if_false]
      have hne : cmd.Name ≠ "" := by simpa using h1
      by_cases h2 : hasCommandPatternMatch cmd.Name n = true
      · simp only [h2, if_true, true_iff]
        exact ⟨cmd, List.mem_cons_self _ _, hne, h2⟩
      · simp only [h2, Bool.false_eq_true, if_false, ih]
        constructor
        · rintro ⟨x, hx, hprops⟩
          exact ⟨x, List.mem_cons_of_mem _ hx, hprops⟩
        · rintro ⟨x, hx, hxe, hm⟩
          rcases List.mem_cons.mp hx with hxc | hxr
          · subst hxc
            exact absurd hm h2
          · exact ⟨x, hxr, hxe, hm⟩

/-- C10: for a non-empty command token with no recognized activation prefix,
the queueing-side membership test `HasCommand` returns true exactly when some
registered spec's pattern, compiled the same way the dispatch-side matcher
compiles it, matches the token — so a message passes the queueing gate iff
the registry scan can find a matching spec. -/
theorem c10_gate_matcher_agree (pfxs : List String) (lists : List ICommand) (name : String)
    (hne : name ≠ "") (hfree : ExtractPfx pfxs name = none) :
    (HasCommand pfxs lists name = true ↔
      ∃ cmd ∈ lists, getCachedRegexMatch cmd.Name name = true) := by
  have hb : (name == "") = false := by simpa using hne
  rw [HasCommand]
  simp only [hb, Bool.false_eq_true, if_false, hfree]
  rw [hasCommandScan_iff]
  constructor
  · rintro ⟨cmd, hc, _, hm⟩
    exact ⟨cmd, hc, hm⟩
  · rintro ⟨cmd, hc, hm⟩
    by_cases hn : cmd.Name = ""
    · rw [hn] at hm
      exact absurd hm (by simp [getCachedRegexMatch_empty_pattern name hne])
    · exact ⟨cmd, hc, hn, hm⟩

theorem c10_gate_matcher_agree_witness :
    (HasCommand ["."] [pingFirst] "ping" = true ↔
      ∃ cmd ∈ [pingFirst], getCachedRegexMatch cmd.Name "ping" = true) ∧
    HasCommand ["."] [pingFirst] "ping" = true :=
  ⟨c10_gate_matcher_agree ["."] [pingFirst] "ping" (by decide) rfl, rfl⟩

/-! ## C4: normalization of command, text, and args

A split piece never contains the separator, and joining space-free pieces and
re-splitting recovers them; these two facts relate the `Args` computed from the
re-split joined tail to the original tail tokens. -/

theorem splitSpaceAux_no_space : ∀ (cs acc : List Char),
    (∀ c ∈ acc, c ≠ ' ') → ∀ x ∈ splitSpaceAux cs acc, ∀ c ∈ x, c ≠ ' ' := by
  intro cs
  induction cs with
  | nil =>
    intro acc hacc x hx c hc
    rw [splitSpaceAux] at hx
    rcases List.mem_singleton.mp hx with rfl
    exact hacc c (List.mem_reverse.mp hc)
  | cons a as ih =>
    intro acc hacc x hx
    rw [splitSpaceAux] at hx
    by_cases ha : (a == ' ') = true
    · rw [if_pos ha] at hx
      rcases List.mem_cons.mp hx with rfl | hx2
      · intro c hc
        exact hacc c (List.mem_reverse.mp hc)
      · exact ih [] (by simp) x hx2
    · rw [if_neg ha] at hx
      refine ih (a :: acc) ?_ x hx
      intro c hc
      rcases List.mem_cons.mp hc with rfl | hc2
      · simpa using ha
      · exact hacc c hc2

theorem splitSpaceAux_no_space_eq : ∀ (xs : List Char), (∀ c ∈ xs, c ≠ ' ') →
    ∀ acc, splitSpaceAux xs acc = [acc.reverse ++ xs] := by
  intro xs
  induction xs with
  | nil =>
    intro _ acc
    rw [splitSpaceAux]
    simp
  | cons a as ih =>
    intro h acc
    rw [splitSpaceAux]
    have ha : ¬((a == ' ') = true) := by simpa using h a (List.mem_cons_self _ _)
    rw [if_neg ha, ih (fun c hc => h c (List.mem_cons_of_mem _ hc)) (a :: acc)]
    simp

theorem splitSpaceAux_append_space : ∀ (xs : List Char), (∀ c ∈ xs, c ≠ ' ') →
    ∀ (cs acc : List Char),
      splitSpaceAux (xs ++ ' ' :: cs) acc = (acc.reverse ++ xs) :: splitSpaceAux cs [] := by
  intro xs
  induction xs with
  | nil =>
    intro _ cs acc
    rw [List.nil_append, splitSpaceAux]
    simp
  | cons a as ih =>
    intro h cs acc
    rw [List.cons_append, splitSpaceAux]
    have ha : ¬((a == ' ') = true) := by simpa using h a (List.mem_cons_self _ _)
    rw [if_neg ha, ih (fun c hc => h c (List.mem_cons_of_mem _ hc)) cs (a :: acc)]
    simp

/-- Character-list form of `goJoinSpace`. -/
def joinChars : List (List Char) → List Char
  | [] => []
  | [x] => x
  | x :: rest => x ++ ' ' :: joinChars rest

theorem joinChars_cons_cons (x y : List Char) (t : List (List Char)) :
    joinChars (x :: y :: t) = x ++ ' ' :: joinChars (y :: t) := rfl

theorem goJoinSpace_cons_cons (x y : String) (t : List String) :
    goJoinSpace (x :: y :: t) = x ++ " " ++ goJoinSpace (y :: t) := rfl

theorem toList_append (a b : String) : (a ++ b).toList = a.toList ++ b.toList := by
  cases a with
  | mk da =>
    cases b with
    | mk db => rfl

theorem goJoinSpace_toList : ∀ l : List String,
    (goJoinSpace l).toList = joinChars (l.map String.toList) := by
  intro l
  induction l with
  | nil => rfl
  | cons x rest ih =>
    cases rest with
    | nil => rfl
    | cons y t =>
      show (x ++ " " ++ goJoinSpace (y :: t)).toList =
        joinChars (x.toList :: String.toList y :: t.map String.toList)
      rw [toList_append, toList_append, ih, joinChars_cons_cons, List.map_cons,
        List.append_assoc]
      rfl

theorem splitChars_joinChars : ∀ l : List (List Char), l ≠ [] →
    (∀ x ∈ l, ∀ c ∈ x, c ≠ ' ') → splitSpaceAux (joinChars l) [] = l := by
  intro l
  induction l with
  | nil =>
    intro h
    exact absurd rfl h
  | cons x rest ih =>
    intro _ hfree
    cases rest with
    | nil =>
      show splitSpaceAux (joinChars [x]) [] = [x]
      have hx := hfree x (List.mem_cons_self _ _)
      rw [show joinChars [x] = x from rfl, splitSpaceAux_no_space_eq x hx []]
      simp
    | cons y t =>
      rw [joinChars_cons_cons,
        splitSpaceAux_append_space x (hfree x (List.mem_cons_self _ _)) (joinChars (y :: t)) [],
        ih (by simp) (fun z hz => hfree z (List.mem_cons_of_mem _ hz))]
      simp

theorem mk_toList (s : String) : (⟨s.toList⟩ : String) = s := rfl

theorem goSplitSpace_goJoinSpace (l : List String) (hne : l ≠ [])
    (hfree : ∀ x ∈ l, ∀ c ∈ x.toList, c ≠ ' ') : goSplitSpace (goJoinSpace l) = l := by
  rw [goSplitSpace, goJoinSpace_toList]
  rw [splitChars_joinChars (l.map String.toList) (by simpa using hne) ?_]
  · rw [List.map_map]
    have h1 : ∀ s : String, ((fun cs => (⟨cs⟩ : String)) ∘ String.toList) s = s :=
      fun s => mk_toList s
    calc l.map ((fun cs => (⟨cs⟩ : String)) ∘ String.toList)
        = l.map id := List.map_congr_left (fun s _ => h1 s)
      _ = l := List.map_id l
  · intro x hx c hc
    rcases List.mem_map.mp hx with ⟨s, hs, rfl⟩
    exact hfree s hs c hc

theorem goSplitSpace_no_space (s : String) :
    ∀ x ∈ goSplitSpace s, ∀ c ∈ x.toList, c ≠ ' ' := by
  intro x hx c hc
  rw [goSplitSpace] at hx
  rcases List.mem_map.mp hx with ⟨l, hl, rfl⟩
  exact splitSpaceAux_no_space s.toList [] (by simp) l hl c hc

/-- The `Command` field of the normalized message, by unfolding. -/
theorem serializeNorm_Command (pfxs : List String) (lists : List ICommand)
    (owners : List String) (sender : String) (botUser : Option String) (body : String) :
    (serializeNorm pfxs lists owners sender botUser body).Command =
      match ExtractPfx pfxs (goToLower ((goSplitSpace body).headD "")) with
      | some p => goTrimSpace (goTrimPfx (goToLower ((goSplitSpace body).headD "")) p)
      | none => "" := rfl

/-- The `Args` field of the normalized message with a nil client, by unfolding. -/
theorem serializeNorm_Args (pfxs : List String) (lists : List ICommand)
    (owners : List String) (sender : String) (body : String) :
    (serializeNorm pfxs lists owners sender none body).Args =
      if (ExtractPfx pfxs (goToLower ((goSplitSpace body).headD ""))).isSome &&
          HasCommand pfxs lists
            (match ExtractPfx pfxs (goToLower ((goSplitSpace body).headD "")) with
             | some p => goTrimSpace (goTrimPfx (goToLower ((goSplitSpace body).headD "")) p)
             | none => "") then
        arrayFilter
          (goSplitSpace
            (if (goSplitSpace body).length > 1 then goJoinSpace (goSplitSpace body).tail else ""))
          ""
      else arrayFilter (goSplitSpace body) "" := rfl

theorem refiltered_tail_eq (body : String) :
    arrayFilter
      (goSplitSpace
        (if (goSplitSpace body).length > 1 then goJoinSpace (goSplitSpace body).tail else ""))
      "" = arrayFilter (goSplitSpace body).tail "" := by
  by_cases hlen : (goSplitSpace body).length > 1
  · rw [if_pos hlen]
    have htne : (goSplitSpace body).tail ≠ [] := by
      have : 0 < (goSplitSpace body).tail.length := by
        rw [List.length_tail]
        omega
      exact List.ne_nil_of_length_pos this
    have hfree : ∀ x ∈ (goSplitSpace body).tail, ∀ c ∈ x.toList, c ≠ ' ' := by
      intro x hx
      exact goSplitSpace_no_space body x (List.mem_of_mem_tail hx)
    rw [goSplitSpace_goJoinSpace (goSplitSpace body).tail htne hfree]
  · rw [if_neg hlen]
    have htail : (goSplitSpace body).tail = [] := by
      have : (goSplitSpace body).tail.length = 0 := by
        rw [List.length_tail]
        omega
      exact List.eq_nil_of_length_eq_zero this
    rw [htail]
    rfl

/-- C4 counterexample: with prefix `"."` configured and only `ping`
registered, the body `".foo bar"` carries a valid prefix, so `Command` is the
stripped token `"foo"`; but because `"foo"` is not registered, `Args` is the
ENTIRE body re-split (`[".foo", "bar"]`), not the remaining tokens `["bar"]`
the claim requires. -/
theorem c4_counterexample :
    (serializeNorm ["."] [pingFirst] [] "123" none ".foo bar").Command = "foo" ∧
    (serializeNorm ["."] [pingFirst] [] "123" none ".foo bar").Args = [".foo", "bar"] ∧
    (serializeNorm ["."] [pingFirst] [] "123" none ".foo bar").Args ≠ ["bar"] := by
  have hargs : (serializeNorm ["."] [pingFirst] [] "123" none ".foo bar").Args
      = [".foo", "bar"] := rfl
  refine ⟨rfl, hargs, ?_⟩
  rw [hargs]
  decide

/-- C4 (amended): when the lowercased first token of the body carries a
configured prefix, `Command` is that token with the prefix removed and
trimmed, regardless of registry membership; `Args` is the remaining tokens
filtered of empty strings only when the stripped command is additionally
REGISTERED (`HasCommand`), and is the entire body re-split and filtered when
it is not; when no prefix matches, `Command` is empty and `Args` is the entire
body re-split and filtered.  (Stated for a nil client, where the bot-mention
strip is skipped.) -/
theorem c4_amended_normalization (pfxs : List String) (lists : List ICommand)
    (owners : List String) (sender : String) (body : String) :
    (∀ p, ExtractPfx pfxs (goToLower ((goSplitSpace body).headD "")) = some p →
      (serializeNorm pfxs lists owners sender none body).Command =
        goTrimSpace (goTrimPfx (goToLower ((goSplitSpace body).headD "")) p) ∧
      (HasCommand pfxs lists
          (goTrimSpace (goTrimPfx (goToLower ((goSplitSpace body).headD "")) p)) = true →
        (serializeNorm pfxs lists owners sender none body).Args =
          arrayFilter (goSplitSpace body).tail "") ∧
      (HasCommand pfxs lists
          (goTrimSpace (goTrimPfx (goToLower ((goSplitSpace body).headD "")) p)) = false →
        (serializeNorm pfxs lists owners sender none body).Args =
          arrayFilter (goSplitSpace body) "")) ∧
    (ExtractPfx pfxs (goToLower ((goSplitSpace body).headD "")) = none →
      (serializeNorm pfxs lists owners sender none body).Command = "" ∧
      (serializeNorm pfxs lists owners sender none body).Args =
        arrayFilter (goSplitSpace body) "") := by
  constructor
  · intro p hp
    refine ⟨?_, ?_, ?_⟩
    · rw [serializeNorm_Command, hp]
    · intro hHC
      rw [serializeNorm_Args, hp]
      simp only [Option.isSome_some, Bool.true_and]
      rw [if_pos hHC]
      exact refiltered_tail_eq body
    · intro hHC
      rw [serializeNorm_Args, hp]
      simp only [Option.isSome_some, Bool.true_and]
      have hne : ¬(HasCommand pfxs lists
          (goTrimSpace (goTrimPfx (goToLower ((goSplitSpace body).headD "")) p)) = true) := by
        rw [hHC]
        exact Bool.false_ne_true
      rw [if_neg hne]
  · intro hp
    refine ⟨?_, ?_⟩
    · rw [serializeNorm_Command, hp]
    · rw [serializeNorm_Args, hp]
      simp

theorem c4_amended_normalization_witness :
    (serializeNorm ["."] [pingFirst] [] "123" none ".ping a b").Command = "ping" ∧
    (serializeNorm ["."] [pingFirst] [] "123" none ".ping a b").Args = ["a", "b"] := by
  have h := (c4_amended_normalization ["."] [pingFirst] [] "123" ".ping a b").1 "." rfl
  refine ⟨?_, ?_⟩
  · rw [h.1]
    rfl
  · rw [h.2.1 rfl]
    rfl

end ZumyGo
